import Mathlib

/-!
Verification of the background-process lifecycle manager and RPC relay of
`mcp-cmd` (src/index.js), as a shallow embedding in Lean.

Strings from the JavaScript runtime are modelled as `List Char`; JavaScript
objects whose insertion order matters (JSON values, the registry file) are
modelled as ordered association lists.  Fallible operations return `Except`
or `Option`.  External collaborators (the MCP client, the URL constructor,
the operating system's process probe) are passed in as explicit oracle
parameters, exactly at the interface boundary the code uses them.
-/

namespace MCPCmd

/-! ### Newline framing (worker side, src/index.js lines 316-324)

The worker keeps a per-connection string `buffer`; on each `data` event it
appends the chunk, splits on every newline, keeps the trailing piece
(`lines.pop() || ''`) as the new buffer and processes each complete line.
`splitLines s` returns the complete newline-terminated lines of `s`
(newline removed) together with the trailing partial line, matching
`s.split('\n')` followed by popping the final element. -/

def splitLines : List Char → List (List Char) × List Char
  | [] => ([], [])
  | c :: cs =>
    if c = '\n' then ([] :: (splitLines cs).1, (splitLines cs).2)
    else
      match splitLines cs with
      | ([], rest) => ([], c :: rest)
      | (l :: ls, rest) => ((c :: l) :: ls, rest)

theorem splitLines_cons (c : Char) (cs : List Char) :
    splitLines (c :: cs) =
      if c = '\n' then ([] :: (splitLines cs).1, (splitLines cs).2)
      else
        match splitLines cs with
        | ([], rest) => ([], c :: rest)
        | (l :: ls, rest) => ((c :: l) :: ls, rest) := rfl

theorem splitLines_no_nl : ∀ s : List Char, '\n' ∉ (splitLines s).2 := by
  intro s
  induction s with
  | nil => simp [splitLines]
  | cons c cs ih =>
    rw [splitLines_cons]
    by_cases hc : c = '\n'
    · simpa [hc] using ih
    · rw [if_neg hc]
      rcases h : splitLines cs with ⟨ls, rest⟩
      rw [h] at ih
      cases ls with
      | nil =>
        intro hmem
        rcases List.mem_cons.mp hmem with h1 | h2
        · exact hc h1.symm
        · exact ih h2
      | cons l ls' => exact ih

theorem splitLines_of_no_nl : ∀ s : List Char, '\n' ∉ s → splitLines s = ([], s) := by
  intro s
  induction s with
  | nil => intro _; rfl
  | cons c cs ih =>
    intro h
    have hc : c ≠ '\n' := fun he => h (he ▸ List.mem_cons_self c cs)
    have hcs : '\n' ∉ cs := fun hm => h (List.mem_cons_of_mem c hm)
    rw [splitLines_cons, if_neg hc, ih hcs]

theorem splitLines_append : ∀ a b : List Char,
    splitLines (a ++ b) =
      ((splitLines a).1 ++ (splitLines ((splitLines a).2 ++ b)).1,
       (splitLines ((splitLines a).2 ++ b)).2) := by
  intro a
  induction a with
  | nil => intro b; simp [splitLines]
  | cons c cs ih =>
    intro b
    rw [List.cons_append, splitLines_cons c (cs ++ b), splitLines_cons c cs]
    by_cases hc : c = '\n'
    · rw [if_pos hc, if_pos hc, ih b]
      simp
    · rw [if_neg hc, if_neg hc]
      rcases h : splitLines cs with ⟨ls, rest⟩
      cases ls with
      | nil =>
        have hcb : splitLines (cs ++ b) = splitLines (rest ++ b) := by
          rw [ih b, h]; simp
        rw [hcb]
        rcases h2 : splitLines (rest ++ b) with ⟨ls2, rest2⟩
        cases ls2 with
        | nil =>
          simp only [List.nil_append, List.cons_append, splitLines_cons, if_neg hc, h2]
        | cons l2 ls2' =>
          simp only [List.nil_append, List.cons_append, splitLines_cons, if_neg hc, h2]
      | cons l ls' =>
        have hcb : splitLines (cs ++ b) =
            (l :: (ls' ++ (splitLines (rest ++ b)).1), (splitLines (rest ++ b)).2) := by
          rw [ih b, h]; simp
        rw [hcb]
        simp

/-- A single newline terminates exactly one complete line. -/
theorem splitLines_snoc_nl : ∀ s : List Char, '\n' ∉ s →
    splitLines (s ++ ['\n']) = ([s], []) := by
  intro s
  induction s with
  | nil => intro _; rfl
  | cons c cs ih =>
    intro h
    have hc : c ≠ '\n' := fun he => h (he ▸ List.mem_cons_self c cs)
    have hcs : '\n' ∉ cs := fun hm => h (List.mem_cons_of_mem c hm)
    rw [List.cons_append, splitLines_cons, if_neg hc, ih hcs]

/-- The pure buffered line decoder the spec describes for the worker's data
handler: state is the pending partial line plus the lines emitted so far. -/
def decodeStep (st : List Char × List (List Char)) (chunk : List Char) :
    List Char × List (List Char) :=
  let r := splitLines (st.1 ++ chunk)
  (r.2, st.2 ++ r.1)

theorem decode_fold_aux : ∀ (chunks : List (List Char)) (buf : List Char)
    (acc : List (List Char)), '\n' ∉ buf →
    List.foldl decodeStep (buf, acc) chunks =
      ((splitLines (buf ++ chunks.flatten)).2,
       acc ++ (splitLines (buf ++ chunks.flatten)).1) := by
  intro chunks
  induction chunks with
  | nil =>
    intro buf acc h
    simp [splitLines_of_no_nl buf h]
  | cons c cs ih =>
    intro buf acc h
    have hrem : '\n' ∉ (splitLines (buf ++ c)).2 := splitLines_no_nl _
    simp only [List.foldl_cons, decodeStep]
    rw [ih _ _ hrem]
    have happ := splitLines_append (buf ++ c) cs.flatten
    rw [List.flatten_cons, ← List.append_assoc, happ]
    simp

/-- Folding the decoder over any chunk sequence yields exactly the complete
lines of the concatenated byte stream, in order, and retains the trailing
partial line as the buffer. -/
theorem decode_fold (chunks : List (List Char)) :
    List.foldl decodeStep ([], []) chunks =
      ((splitLines chunks.flatten).2, (splitLines chunks.flatten).1) := by
  have := decode_fold_aux chunks [] [] (by simp)
  simpa using this

/-! ### The JSON wire codec

The code frames every message with `JSON.stringify` and `JSON.parse`.  Those
runtime builtins are modelled by a JSON value type `Json` (objects are
ordered field lists, numbers are integers carried as the decimal text on
the wire), a serializer producing the compact output `JSON.stringify`
produces, and a parser.  The runtime materializes numbers as IEEE doubles,
which is NOT exact for integers of magnitude above 2^53: that rounding is
modelled separately (`jsNumRound`, `numsRound` below) and is proved to be
the identity exactly on values satisfying `numsInRange`, the regime in
which this exact codec is faithful.  Control characters inside strings are
carried verbatim rather than u-escaped; the common escapes are modelled
exactly.  The parser tolerates surrounding whitespace, as `JSON.parse`
does for the worker's newline-terminated responses. -/

inductive Json where
  | null
  | bool (b : Bool)
  | num (n : Int)
  | str (s : List Char)
  | arr (elems : List Json)
  | obj (fields : List (List Char × Json))

def isWs (c : Char) : Bool := c = ' ' || c = '\n' || c = '\t' || c = '\r'

def escapeChar (c : Char) : List Char :=
  if c = '"' then ['\\', '"']
  else if c = '\\' then ['\\', '\\']
  else if c = '\n' then ['\\', 'n']
  else if c = '\r' then ['\\', 'r']
  else if c = '\t' then ['\\', 't']
  else [c]

def unescapeChar (c : Char) : Option Char :=
  if c = '"' then some '"'
  else if c = '\\' then some '\\'
  else if c = 'n' then some '\n'
  else if c = 'r' then some '\r'
  else if c = 't' then some '\t'
  else none

def serStrBody : List Char → List Char
  | [] => []
  | c :: cs => escapeChar c ++ serStrBody cs

def digitChar : Nat → Char
  | 0 => '0'
  | 1 => '1'
  | 2 => '2'
  | 3 => '3'
  | 4 => '4'
  | 5 => '5'
  | 6 => '6'
  | 7 => '7'
  | 8 => '8'
  | 9 => '9'
  | _ => '0'

def natDigitsRevAux : Nat → Nat → List Char
  | 0, _ => []
  | fuel + 1, n =>
    if n < 10 then [digitChar n]
    else digitChar (n % 10) :: natDigitsRevAux fuel (n / 10)

/-- Decimal digits of `n`, least significant first.  The fuel argument is
always sufficient (the recursion depth is at most `n`). -/
def natDigitsRev (n : Nat) : List Char := natDigitsRevAux (n + 1) n

def serNat (n : Nat) : List Char := (natDigitsRev n).reverse

def serInt (n : Int) : List Char :=
  if n < 0 then '-' :: serNat n.natAbs else serNat n.natAbs

mutual
def serJson : Json → List Char
  | .null => ("null".toList)
  | .bool true => ("true".toList)
  | .bool false => ("false".toList)
  | .num n => serInt n
  | .str s => '"' :: (serStrBody s ++ ['"'])
  | .arr es => '[' :: (serElems es ++ [']'])
  | .obj fs => '{' :: (serFields fs ++ ['}'])
def serElems : List Json → List Char
  | [] => []
  | [e] => serJson e
  | e :: es => serJson e ++ (',' :: serElems es)
def serFields : List (List Char × Json) → List Char
  | [] => []
  | [(k, v)] => '"' :: (serStrBody k ++ ('"' :: (':' :: serJson v)))
  | (k, v) :: fs =>
    ('"' :: (serStrBody k ++ ('"' :: (':' :: serJson v)))) ++ (',' :: serFields fs)
end

/-- Serialization of one object field, `"key":value`. -/
def serField (k : List Char) (v : Json) : List Char :=
  '"' :: (serStrBody k ++ ('"' :: (':' :: serJson v)))

mutual
def parseStrBody : List Char → Option (List Char × List Char)
  | [] => none
  | c :: cs =>
    if c = '"' then some ([], cs)
    else if c = '\\' then parseEscTail cs
    else
      match parseStrBody cs with
      | some (s, r) => some (c :: s, r)
      | none => none
def parseEscTail : List Char → Option (List Char × List Char)
  | [] => none
  | e :: cs2 =>
    match unescapeChar e, parseStrBody cs2 with
    | some d, some (s, r) => some (d :: s, r)
    | _, _ => none
end

def parseDigitsAux : List Char → Nat → Nat × List Char
  | [], acc => (acc, [])
  | c :: cs, acc =>
    if c.isDigit then parseDigitsAux cs (acc * 10 + (c.toNat - 48))
    else (acc, c :: cs)

def parseDigits (s : List Char) : Option (Nat × List Char) :=
  match s with
  | [] => none
  | c :: _ => if c.isDigit then some (parseDigitsAux s 0) else none

def headIs (d : Char) : List Char → Bool
  | [] => false
  | c :: _ => c = d

def headIsDigit : List Char → Bool
  | [] => false
  | c :: _ => c.isDigit

mutual
def parseValue : Nat → List Char → Option (Json × List Char)
  | 0, _ => none
  | fuel + 1, s =>
    match s with
    | [] => none
    | c :: rest =>
      if c = 'n' then
        match rest with
        | 'u' :: 'l' :: 'l' :: r => some (.null, r)
        | _ => none
      else if c = 't' then
        match rest with
        | 'r' :: 'u' :: 'e' :: r => some (.bool true, r)
        | _ => none
      else if c = 'f' then
        match rest with
        | 'a' :: 'l' :: 's' :: 'e' :: r => some (.bool false, r)
        | _ => none
      else if c = '"' then
        match parseStrBody rest with
        | some (s1, r) => some (.str s1, r)
        | none => none
      else if c = '[' then
        if headIs ']' rest then some (.arr [], rest.drop 1)
        else
          match parseElems fuel rest with
          | some (es, r) => some (.arr es, r)
          | none => none
      else if c = '{' then
        if headIs '}' rest then some (.obj [], rest.drop 1)
        else
          match parseFields fuel rest with
          | some (fs, r) => some (.obj fs, r)
          | none => none
      else if c = '-' then
        match parseDigits rest with
        | some (k, r) => some (.num (-(k : Int)), r)
        | none => none
      else if c.isDigit then
        match parseDigits (c :: rest) with
        | some (k, r) => some (.num (k : Int), r)
        | none => none
      else none
def parseElems : Nat → List Char → Option (List Json × List Char)
  | 0, _ => none
  | fuel + 1, s =>
    match parseValue fuel s with
    | some (v, r1) =>
      match r1 with
      | ',' :: r2 =>
        match parseElems fuel r2 with
        | some (vs, r3) => some (v :: vs, r3)
        | none => none
      | ']' :: r2 => some ([v], r2)
      | _ => none
    | none => none
def parseFields : Nat → List Char → Option (List (List Char × Json) × List Char)
  | 0, _ => none
  | fuel + 1, s =>
    match s with
    | '"' :: r0 =>
      match parseStrBody r0 with
      | some (k, r1) =>
        match r1 with
        | ':' :: r2 =>
          match parseValue fuel r2 with
          | some (v, r3) =>
            match r3 with
            | ',' :: r4 =>
              match parseFields fuel r4 with
              | some (fs, r5) => some ((k, v) :: fs, r5)
              | none => none
            | '}' :: r4 => some ([(k, v)], r4)
            | _ => none
          | none => none
        | _ => none
      | none => none
    | _ => none
end

def skipWs : List Char → List Char
  | [] => []
  | c :: cs => if isWs c then skipWs cs else c :: cs

/-- The model of `JSON.parse`: parse one JSON value, allowing surrounding
whitespace and nothing else. -/
def jsonParse (s : List Char) : Option Json :=
  match parseValue (2 * s.length + 2) (skipWs s) with
  | some (v, rest) => if rest.all isWs then some v else none
  | none => none

/-! ### Round-trip facts about the codec -/

theorem digitChar_isDigit : ∀ n : Nat, (digitChar n).isDigit = true := by
  intro n
  unfold digitChar
  split <;> decide

theorem digitChar_val : ∀ n : Nat, n < 10 → (digitChar n).toNat - 48 = n := by
  intro n h
  interval_cases n <;> decide

theorem natDigitsRevAux_irrel : ∀ n f1 f2 : Nat, n < f1 → n < f2 →
    natDigitsRevAux f1 n = natDigitsRevAux f2 n := by
  intro n
  induction n using Nat.strong_induction_on with
  | _ n ih =>
    intro f1 f2 h1 h2
    cases f1 with
    | zero => omega
    | succ a =>
      cases f2 with
      | zero => omega
      | succ b =>
        by_cases h10 : n < 10
        · simp [natDigitsRevAux, h10]
        · have hlt : n / 10 < n := Nat.div_lt_self (by omega) (by omega)
          simp only [natDigitsRevAux, if_neg h10]
          rw [ih (n / 10) hlt a b (by omega) (by omega)]

theorem natDigitsRev_eq (n : Nat) :
    natDigitsRev n = if n < 10 then [digitChar n]
      else digitChar (n % 10) :: natDigitsRev (n / 10) := by
  by_cases h10 : n < 10
  · rw [if_pos h10]
    show natDigitsRevAux (n + 1) n = _
    simp [natDigitsRevAux, h10]
  · rw [if_neg h10]
    show natDigitsRevAux (n + 1) n = _
    simp only [natDigitsRevAux, if_neg h10]
    unfold natDigitsRev
    rw [natDigitsRevAux_irrel (n / 10) n (n / 10 + 1)
      (by omega) (by omega)]

theorem natDigitsRev_digits (n : Nat) : ∀ c ∈ natDigitsRev n, c.isDigit = true := by
  induction n using Nat.strong_induction_on with
  | _ n ih =>
    rw [natDigitsRev_eq]
    by_cases h10 : n < 10
    · simp only [if_pos h10]
      intro c hc
      rw [List.mem_singleton.mp hc]
      exact digitChar_isDigit n
    · have hlt : n / 10 < n := Nat.div_lt_self (by omega) (by omega)
      simp only [if_neg h10]
      intro c hc
      rcases List.mem_cons.mp hc with h1 | h2
      · rw [h1]; exact digitChar_isDigit _
      · exact ih (n / 10) hlt c h2

theorem natDigitsRev_ne_nil (n : Nat) : natDigitsRev n ≠ [] := by
  rw [natDigitsRev_eq]
  by_cases h10 : n < 10 <;> simp [h10]

theorem serNat_ne_nil (n : Nat) : serNat n ≠ [] := by
  unfold serNat
  simp [natDigitsRev_ne_nil n]

theorem serNat_digits (n : Nat) : ∀ c ∈ serNat n, c.isDigit = true := by
  intro c hc
  exact natDigitsRev_digits n c (List.mem_reverse.mp hc)

theorem serNat_eq (n : Nat) :
    serNat n = if n < 10 then [digitChar n]
      else serNat (n / 10) ++ [digitChar (n % 10)] := by
  unfold serNat
  rw [natDigitsRev_eq]
  by_cases h10 : n < 10
  · simp [h10]
  · simp [h10]

def valAcc (acc : Nat) (l : List Char) : Nat :=
  l.foldl (fun a c => a * 10 + (c.toNat - 48)) acc

theorem valAcc_serNat : ∀ n acc : Nat,
    valAcc acc (serNat n) = acc * 10 ^ (serNat n).length + n := by
  intro n
  induction n using Nat.strong_induction_on with
  | _ n ih =>
    intro acc
    rw [serNat_eq]
    by_cases h10 : n < 10
    · simp only [if_pos h10]
      unfold valAcc
      simp [digitChar_val n h10]
    · have hlt : n / 10 < n := Nat.div_lt_self (by omega) (by omega)
      simp only [if_neg h10]
      unfold valAcc
      rw [List.foldl_append]
      have hmid := ih (n / 10) hlt acc
      unfold valAcc at hmid
      rw [hmid]
      have hd10 : n % 10 < 10 := Nat.mod_lt n (by omega)
      simp only [List.foldl_cons, List.foldl_nil, digitChar_val (n % 10) hd10,
        List.length_append, List.length_cons, List.length_nil]
      have hpow : 10 ^ ((serNat (n / 10)).length + (0 + 1)) =
          10 ^ (serNat (n / 10)).length * 10 := by
        rw [Nat.zero_add, pow_succ]
      rw [hpow]
      have hdm : 10 * (n / 10) + n % 10 = n := Nat.div_add_mod n 10
      calc (acc * 10 ^ (serNat (n / 10)).length + n / 10) * 10 + n % 10
          = acc * (10 ^ (serNat (n / 10)).length * 10) + (10 * (n / 10) + n % 10) := by ring
        _ = acc * (10 ^ (serNat (n / 10)).length * 10) + n := by rw [hdm]

theorem parseDigitsAux_digits : ∀ (l rest : List Char) (acc : Nat),
    (∀ c ∈ l, c.isDigit = true) →
    parseDigitsAux (l ++ rest) acc = parseDigitsAux rest (valAcc acc l) := by
  intro l
  induction l with
  | nil => intro rest acc _; simp [valAcc]
  | cons c cs ih =>
    intro rest acc h
    have hc : c.isDigit = true := h c (List.mem_cons_self c cs)
    have hcs : ∀ x ∈ cs, x.isDigit = true := fun x hx => h x (List.mem_cons_of_mem c hx)
    rw [List.cons_append]
    simp only [parseDigitsAux, if_pos hc]
    rw [ih rest _ hcs]
    rfl

theorem parseDigitsAux_stop (rest : List Char) (acc : Nat) (h : headIsDigit rest = false) :
    parseDigitsAux rest acc = (acc, rest) := by
  cases rest with
  | nil => rfl
  | cons c cs =>
    have : c.isDigit = false := by simpa [headIsDigit] using h
    simp [parseDigitsAux, this]

theorem serNat_head (n : Nat) : ∃ c cs, serNat n = c :: cs ∧ c.isDigit = true := by
  rcases h : serNat n with _ | ⟨c, cs⟩
  · exact absurd h (serNat_ne_nil n)
  · refine ⟨c, cs, rfl, serNat_digits n c ?_⟩
    rw [h]
    exact List.mem_cons_self c cs

theorem parseDigits_serNat (n : Nat) (rest : List Char) (h : headIsDigit rest = false) :
    parseDigits (serNat n ++ rest) = some (n, rest) := by
  rcases serNat_head n with ⟨c, cs, he, hd⟩
  rw [he, List.cons_append]
  simp only [parseDigits, if_pos hd]
  rw [← List.cons_append, ← he]
  rw [parseDigitsAux_digits (serNat n) rest 0 (serNat_digits n)]
  rw [parseDigitsAux_stop rest _ h]
  rw [valAcc_serNat n 0]
  simp

theorem parseStrBody_esc (e : Char) (cs : List Char) :
    parseStrBody ('\\' :: e :: cs) =
      match unescapeChar e, parseStrBody cs with
      | some d, some (s, r) => some (d :: s, r)
      | _, _ => none := rfl

theorem parseStrBody_other (c : Char) (cs : List Char) (h1 : c ≠ '"') (h2 : c ≠ '\\') :
    parseStrBody (c :: cs) =
      match parseStrBody cs with
      | some (s, r) => some (c :: s, r)
      | none => none := by
  simp only [parseStrBody]
  rw [if_neg h1, if_neg h2]

theorem parseStrBody_ser : ∀ (s rest : List Char),
    parseStrBody (serStrBody s ++ ('"' :: rest)) = some (s, rest) := by
  intro s
  induction s with
  | nil =>
    intro rest
    show parseStrBody (serStrBody [] ++ ('"' :: rest)) = _
    rw [show serStrBody [] = [] from rfl, List.nil_append]
    rfl
  | cons c cs ih =>
    intro rest
    show parseStrBody ((escapeChar c ++ serStrBody cs) ++ ('"' :: rest)) = _
    rw [List.append_assoc]
    by_cases h1 : c = '"'
    · subst h1
      rw [show escapeChar '"' = ['\\', '"'] from rfl]
      simp only [List.cons_append, List.nil_append]
      rw [parseStrBody_esc, ih rest]
      rfl
    · by_cases h2 : c = '\\'
      · subst h2
        rw [show escapeChar '\\' = ['\\', '\\'] from rfl]
        simp only [List.cons_append, List.nil_append]
        rw [parseStrBody_esc, ih rest]
        rfl
      · by_cases h3 : c = '\n'
        · subst h3
          rw [show escapeChar '\n' = ['\\', 'n'] from rfl]
          simp only [List.cons_append, List.nil_append]
          rw [parseStrBody_esc, ih rest]
          rfl
        · by_cases h4 : c = '\r'
          · subst h4
            rw [show escapeChar '\r' = ['\\', 'r'] from rfl]
            simp only [List.cons_append, List.nil_append]
            rw [parseStrBody_esc, ih rest]
            rfl
          · by_cases h5 : c = '\t'
            · subst h5
              rw [show escapeChar '\t' = ['\\', 't'] from rfl]
              simp only [List.cons_append, List.nil_append]
              rw [parseStrBody_esc, ih rest]
              rfl
            · rw [show escapeChar c = [c] from by simp [escapeChar, h1, h2, h3, h4, h5]]
              simp only [List.cons_append, List.nil_append]
              rw [parseStrBody_other c _ h1 h2, ih rest]

theorem serJson_null : serJson .null = ("null".toList) := rfl

theorem serJson_num (n : Int) : serJson (.num n) = serInt n := rfl

theorem serJson_str (s : List Char) : serJson (.str s) = '"' :: (serStrBody s ++ ['"']) := rfl

theorem serJson_arr (es : List Json) : serJson (.arr es) = '[' :: (serElems es ++ [']']) := rfl

theorem serJson_obj (fs : List (List Char × Json)) :
    serJson (.obj fs) = '{' :: (serFields fs ++ ['}']) := rfl

theorem serElems_single (e : Json) : serElems [e] = serJson e := rfl

theorem serElems_cons (e : Json) (es : List Json) (h : es ≠ []) :
    serElems (e :: es) = serJson e ++ (',' :: serElems es) := by
  cases es with
  | nil => exact absurd rfl h
  | cons e2 es2 => rfl

theorem serField_eq (k : List Char) (v : Json) :
    serField k v = '"' :: (serStrBody k ++ ('"' :: (':' :: serJson v))) := rfl

theorem serFields_single (k : List Char) (v : Json) : serFields [(k, v)] = serField k v := rfl

theorem serFields_cons (k : List Char) (v : Json) (fs : List (List Char × Json)) (h : fs ≠ []) :
    serFields ((k, v) :: fs) = serField k v ++ (',' :: serFields fs) := by
  cases fs with
  | nil => exact absurd rfl h
  | cons f2 fs2 => rfl

theorem isDigit_ne (c : Char) (h : c.isDigit = true) :
    c ≠ 'n' ∧ c ≠ 't' ∧ c ≠ 'f' ∧ c ≠ '"' ∧ c ≠ '[' ∧ c ≠ '{' ∧ c ≠ '-' ∧
    c ≠ ']' ∧ c ≠ '}' ∧ c ≠ ',' ∧ c ≠ ':' ∧ c ≠ '\n' := by
  refine ⟨fun he => ?_, fun he => ?_, fun he => ?_, fun he => ?_, fun he => ?_, fun he => ?_,
    fun he => ?_, fun he => ?_, fun he => ?_, fun he => ?_, fun he => ?_, fun he => ?_⟩ <;>
    (subst he; exact absurd h (by decide))

theorem isWs_cases (c : Char) (h : isWs c = true) :
    c = ' ' ∨ c = '\n' ∨ c = '\t' ∨ c = '\r' := by
  have h2 : ((c = ' ' ∨ c = '\n') ∨ c = '\t') ∨ c = '\r' := by
    simpa [isWs, Bool.or_eq_true, decide_eq_true_eq] using h
  tauto

theorem isDigit_not_ws (c : Char) (h : c.isDigit = true) : isWs c = false := by
  cases hw : isWs c
  · rfl
  · exfalso
    rcases isWs_cases c hw with h1 | h1 | h1 | h1 <;> (subst h1; exact absurd h (by decide))

theorem serJson_head_cases (v : Json) : ∃ c cs, serJson v = c :: cs ∧
    (c = 'n' ∨ c = 't' ∨ c = 'f' ∨ c = '"' ∨ c = '[' ∨ c = '{' ∨ c = '-' ∨ c.isDigit = true) := by
  cases v with
  | null => exact ⟨'n', _, rfl, Or.inl rfl⟩
  | bool b =>
    cases b with
    | true => exact ⟨'t', _, rfl, Or.inr (Or.inl rfl)⟩
    | false => exact ⟨'f', _, rfl, Or.inr (Or.inr (Or.inl rfl))⟩
  | num n =>
    rw [serJson_num]
    unfold serInt
    by_cases hn : n < 0
    · rw [if_pos hn]
      exact ⟨'-', _, rfl, by tauto⟩
    · rw [if_neg hn]
      rcases serNat_head n.natAbs with ⟨c, cs, he, hd⟩
      exact ⟨c, cs, he, by tauto⟩
  | str s => exact ⟨'"', _, rfl, by tauto⟩
  | arr es => exact ⟨'[', _, rfl, by tauto⟩
  | obj fs => exact ⟨'{', _, rfl, by tauto⟩

theorem serJson_headIs_close (v : Json) (tail : List Char) (d : Char)
    (hd : d = ']' ∨ d = '}') : headIs d (serJson v ++ tail) = false := by
  rcases serJson_head_cases v with ⟨c, cs, he, hc⟩
  rw [he, List.cons_append]
  have hne : c ≠ d := by
    rcases hd with rfl | rfl <;>
      rcases hc with rfl | rfl | rfl | rfl | rfl | rfl | rfl | hdig
    · decide
    · decide
    · decide
    · decide
    · decide
    · decide
    · decide
    · exact (isDigit_ne c hdig).2.2.2.2.2.2.2.1
    · decide
    · decide
    · decide
    · decide
    · decide
    · decide
    · decide
    · exact (isDigit_ne c hdig).2.2.2.2.2.2.2.2.1
  simp [headIs, hne]

theorem serJson_head_not_digit_char (v : Json) (tail : List Char) :
    skipWs (serJson v ++ tail) = serJson v ++ tail := by
  rcases serJson_head_cases v with ⟨c, cs, he, hc⟩
  rw [he, List.cons_append]
  have hnw : isWs c = false := by
    rcases hc with rfl | rfl | rfl | rfl | rfl | rfl | rfl | hdig
    · decide
    · decide
    · decide
    · decide
    · decide
    · decide
    · decide
    · exact isDigit_not_ws c hdig
  simp [skipWs, hnw]

/-! ### Fuel bounds for the parser -/

mutual
def Fv : Json → Nat
  | .arr es => Fe es + 1
  | .obj fs => Ff fs + 1
  | _ => 1
def Fe : List Json → Nat
  | [] => 1
  | e :: es => Fv e + Fe es + 1
def Ff : List (List Char × Json) → Nat
  | [] => 1
  | kv :: fs => Fv kv.2 + Ff fs + 1
end

theorem Fv_pos (v : Json) : 1 ≤ Fv v := by
  cases v <;> simp [Fv]

theorem Fe_pos (es : List Json) : 1 ≤ Fe es := by
  cases es <;> simp [Fe]

theorem Ff_pos (fs : List (List Char × Json)) : 1 ≤ Ff fs := by
  cases fs <;> simp [Ff]

theorem pv_quote (f : Nat) (x : List Char) :
    parseValue (f + 1) ('"' :: x) =
      match parseStrBody x with
      | some (s1, r) => some (.str s1, r)
      | none => none := rfl

theorem pv_lbrack (f : Nat) (x : List Char) :
    parseValue (f + 1) ('[' :: x) =
      if headIs ']' x then some (.arr [], x.drop 1)
      else
        match parseElems f x with
        | some (es, r) => some (.arr es, r)
        | none => none := rfl

theorem pv_lbrace (f : Nat) (x : List Char) :
    parseValue (f + 1) ('{' :: x) =
      if headIs '}' x then some (.obj [], x.drop 1)
      else
        match parseFields f x with
        | some (fs, r) => some (.obj fs, r)
        | none => none := rfl

theorem pv_minus (f : Nat) (x : List Char) :
    parseValue (f + 1) ('-' :: x) =
      match parseDigits x with
      | some (k, r) => some (.num (-(k : Int)), r)
      | none => none := rfl

theorem pv_digit (f : Nat) (c : Char) (x : List Char) (h : c.isDigit = true) :
    parseValue (f + 1) (c :: x) =
      match parseDigits (c :: x) with
      | some (k, r) => some (.num (k : Int), r)
      | none => none := by
  obtain ⟨h1, h2, h3, h4, h5, h6, h7, _⟩ := isDigit_ne c h
  simp only [parseValue]
  rw [if_neg h1, if_neg h2, if_neg h3, if_neg h4, if_neg h5, if_neg h6, if_neg h7, if_pos h]

/-- Round trip of the wire codec at every sufficient fuel: parsing the
serialization of any JSON value (followed by any residue that cannot be
mistaken for more digits) returns exactly that value and the residue. -/
theorem parse_ser_all : ∀ fuel : Nat,
    (∀ (v : Json) (rest : List Char), Fv v ≤ fuel → headIsDigit rest = false →
      parseValue fuel (serJson v ++ rest) = some (v, rest)) ∧
    (∀ (es : List Json) (rest : List Char), es ≠ [] → Fe es ≤ fuel →
      parseElems fuel (serElems es ++ (']' :: rest)) = some (es, rest)) ∧
    (∀ (fs : List (List Char × Json)) (rest : List Char), fs ≠ [] → Ff fs ≤ fuel →
      parseFields fuel (serFields fs ++ ('}' :: rest)) = some (fs, rest)) := by
  intro fuel
  induction fuel with
  | zero =>
    refine ⟨fun v rest hf _ => ?_, fun es rest hne hf => ?_, fun fs rest hne hf => ?_⟩
    · have := Fv_pos v; omega
    · have := Fe_pos es; omega
    · have := Ff_pos fs; omega
  | succ fuel ih =>
    obtain ⟨ihv, ihe, ihf⟩ := ih
    refine ⟨?_, ?_, ?_⟩
    · intro v rest hf hrest
      cases v with
      | null => rfl
      | bool b => cases b <;> rfl
      | num n =>
        by_cases hn : n < 0
        · have hser : serJson (.num n) = '-' :: serNat n.natAbs := by
            rw [serJson_num]; unfold serInt; rw [if_pos hn]
          rw [hser, List.cons_append, pv_minus fuel _,
            parseDigits_serNat n.natAbs rest hrest]
          show some (Json.num (-(n.natAbs : Int)), rest) = some (Json.num n, rest)
          have habs : -((n.natAbs : Int)) = n := by omega
          rw [habs]
        · have hser : serJson (.num n) = serNat n.natAbs := by
            rw [serJson_num]; unfold serInt; rw [if_neg hn]
          rcases serNat_head n.natAbs with ⟨c, cs, he, hd⟩
          rw [hser, he, List.cons_append, pv_digit fuel c _ hd, ← List.cons_append, ← he,
            parseDigits_serNat n.natAbs rest hrest]
          show some (Json.num ((n.natAbs : Int)), rest) = some (Json.num n, rest)
          have habs : ((n.natAbs : Int)) = n := by omega
          rw [habs]
      | str s =>
        have h1 : serJson (.str s) ++ rest = '"' :: (serStrBody s ++ ('"' :: rest)) := by
          rw [serJson_str]; simp
        rw [h1, pv_quote, parseStrBody_ser s rest]
      | arr es =>
        cases es with
        | nil => rfl
        | cons e es2 =>
          have h1 : serJson (.arr (e :: es2)) ++ rest =
              '[' :: (serElems (e :: es2) ++ (']' :: rest)) := by
            rw [serJson_arr]; simp
          rw [h1, pv_lbrack]
          have hhead : headIs ']' (serElems (e :: es2) ++ (']' :: rest)) = false := by
            cases es2 with
            | nil =>
              rw [serElems_single]
              exact serJson_headIs_close e _ ']' (Or.inl rfl)
            | cons e3 es3 =>
              rw [serElems_cons e _ (by simp), List.append_assoc]
              exact serJson_headIs_close e _ ']' (Or.inl rfl)
          rw [if_neg (by rw [hhead]; simp)]
          have hfe : Fe (e :: es2) ≤ fuel := by
            simp only [Fv] at hf; omega
          rw [ihe (e :: es2) rest (by simp) hfe]
      | obj fs =>
        cases fs with
        | nil => rfl
        | cons kv fs2 =>
          have h1 : serJson (.obj (kv :: fs2)) ++ rest =
              '{' :: (serFields (kv :: fs2) ++ ('}' :: rest)) := by
            rw [serJson_obj]; simp
          rw [h1, pv_lbrace]
          have hhead : headIs '}' (serFields (kv :: fs2) ++ ('}' :: rest)) = false := by
            rcases kv with ⟨k, v0⟩
            cases fs2 with
            | nil =>
              rw [serFields_single, serField_eq]
              rfl
            | cons f3 fs3 =>
              rw [serFields_cons k v0 _ (by simp), serField_eq]
              rfl
          rw [if_neg (by rw [hhead]; simp)]
          have hff : Ff (kv :: fs2) ≤ fuel := by
            simp only [Fv] at hf; omega
          rw [ihf (kv :: fs2) rest (by simp) hff]
    · intro es rest hne hf
      cases es with
      | nil => exact absurd rfl hne
      | cons e es2 =>
        have hFv : Fv e ≤ fuel := by
          have h1 := Fe_pos es2
          simp only [Fe] at hf; omega
        cases es2 with
        | nil =>
          rw [serElems_single]
          simp only [parseElems]
          rw [ihv e (']' :: rest) hFv rfl]
          rfl
        | cons e3 es3 =>
          have hFe : Fe (e3 :: es3) ≤ fuel := by
            have h1 := Fv_pos e
            simp only [Fe] at hf ⊢
            omega
          rw [serElems_cons e (e3 :: es3) (by simp), List.append_assoc]
          simp only [List.cons_append]
          simp only [parseElems]
          rw [ihv e (',' :: (serElems (e3 :: es3) ++ (']' :: rest))) hFv rfl]
          show (match parseElems fuel (serElems (e3 :: es3) ++ (']' :: rest)) with
            | some (vs, r3) => some (e :: vs, r3)
            | none => none) = some (e :: e3 :: es3, rest)
          rw [ihe (e3 :: es3) rest (by simp) hFe]
    · intro fs rest hne hf
      cases fs with
      | nil => exact absurd rfl hne
      | cons kv fs2 =>
        rcases kv with ⟨k, v0⟩
        have hFv : Fv v0 ≤ fuel := by
          have h1 := Ff_pos fs2
          simp only [Ff] at hf; omega
        cases fs2 with
        | nil =>
          rw [serFields_single, serField_eq]
          simp only [List.cons_append, List.append_assoc]
          simp only [parseFields]
          rw [parseStrBody_ser k _]
          show (match parseValue fuel (serJson v0 ++ ('}' :: rest)) with
            | some (v, r3) =>
              match r3 with
              | ',' :: r4 =>
                match parseFields fuel r4 with
                | some (fs, r5) => some ((k, v) :: fs, r5)
                | none => none
              | '}' :: r4 => some ([(k, v)], r4)
              | _ => none
            | none => none) = some ([(k, v0)], rest)
          rw [ihv v0 ('}' :: rest) hFv rfl]
          rfl
        | cons f3 fs3 =>
          have hFf : Ff (f3 :: fs3) ≤ fuel := by
            have h1 := Fv_pos v0
            simp only [Ff] at hf ⊢
            omega
          rw [serFields_cons k v0 _ (by simp), serField_eq]
          simp only [List.cons_append, List.append_assoc]
          simp only [parseFields]
          rw [parseStrBody_ser k _]
          show (match parseValue fuel (serJson v0 ++ (',' :: (serFields (f3 :: fs3) ++ ('}' :: rest)))) with
            | some (v, r3) =>
              match r3 with
              | ',' :: r4 =>
                match parseFields fuel r4 with
                | some (fs, r5) => some ((k, v) :: fs, r5)
                | none => none
              | '}' :: r4 => some ([(k, v)], r4)
              | _ => none
            | none => none) = some ((k, v0) :: f3 :: fs3, rest)
          rw [ihv v0 (',' :: (serFields (f3 :: fs3) ++ ('}' :: rest))) hFv rfl]
          show (match parseFields fuel (serFields (f3 :: fs3) ++ ('}' :: rest)) with
            | some (fs, r5) => some ((k, v0) :: fs, r5)
            | none => none) = some ((k, v0) :: f3 :: fs3, rest)
          rw [ihf (f3 :: fs3) rest (by simp) hFf]

theorem F_le_len : ∀ fuel : Nat,
    (∀ v : Json, Fv v ≤ fuel → Fv v + 1 ≤ 2 * (serJson v).length) ∧
    (∀ es : List Json, Fe es ≤ fuel → Fe es ≤ 2 * (serElems es).length + 2) ∧
    (∀ fs : List (List Char × Json), Ff fs ≤ fuel →
      Ff fs ≤ 2 * (serFields fs).length + 2) := by
  intro fuel
  induction fuel with
  | zero =>
    refine ⟨fun v hf => ?_, fun es hf => ?_, fun fs hf => ?_⟩
    · have := Fv_pos v; omega
    · have := Fe_pos es; omega
    · have := Ff_pos fs; omega
  | succ fuel ih =>
    obtain ⟨ihv, ihe, ihf⟩ := ih
    refine ⟨?_, ?_, ?_⟩
    · intro v hf
      cases v with
      | null => simp [Fv, serJson_null]
      | bool b => cases b <;> simp [Fv, serJson]
      | num n =>
        have h1 : 1 ≤ (serJson (.num n)).length := by
          rw [serJson_num]; unfold serInt
          by_cases hn : n < 0
          · rw [if_pos hn]; simp
          · rw [if_neg hn]
            rcases serNat_head n.natAbs with ⟨c, cs, he, _⟩
            rw [he]; simp
        simp only [Fv]; omega
      | str s =>
        have h1 : 1 ≤ (serJson (.str s)).length := by rw [serJson_str]; simp
        simp only [Fv]; omega
      | arr es =>
        have hfe : Fe es ≤ fuel := by simp only [Fv] at hf; omega
        have h2 := ihe es hfe
        simp only [Fv, serJson_arr, List.length_cons, List.length_append,
          List.length_singleton]
        omega
      | obj fs =>
        have hff : Ff fs ≤ fuel := by simp only [Fv] at hf; omega
        have h2 := ihf fs hff
        simp only [Fv, serJson_obj, List.length_cons, List.length_append,
          List.length_singleton]
        omega
    · intro es hf
      cases es with
      | nil => simp [Fe, serElems]
      | cons e es2 =>
        have hFv : Fv e ≤ fuel := by
          have := Fe_pos es2
          simp only [Fe] at hf; omega
        have h1 := ihv e hFv
        cases es2 with
        | nil =>
          rw [serElems_single]
          simp only [Fe]
          omega
        | cons e3 es3 =>
          have hFe : Fe (e3 :: es3) ≤ fuel := by
            have := Fv_pos e
            simp only [Fe] at hf ⊢
            omega
          have h2 := ihe (e3 :: es3) hFe
          simp only [Fe] at h2
          rw [serElems_cons e (e3 :: es3) (by simp)]
          simp only [Fe, List.length_append, List.length_cons]
          omega
    · intro fs hf
      cases fs with
      | nil => simp [Ff, serFields]
      | cons kv fs2 =>
        rcases kv with ⟨k, v0⟩
        have hFv : Fv v0 ≤ fuel := by
          have := Ff_pos fs2
          simp only [Ff] at hf; omega
        have h1 := ihv v0 hFv
        cases fs2 with
        | nil =>
          rw [serFields_single, serField_eq]
          simp only [Ff, List.length_cons, List.length_append]
          omega
        | cons f3 fs3 =>
          have hFf : Ff (f3 :: fs3) ≤ fuel := by
            have := Fv_pos v0
            simp only [Ff] at hf ⊢
            omega
          have h2 := ihf (f3 :: fs3) hFf
          simp only [Ff] at h2
          rw [serFields_cons k v0 _ (by simp), serField_eq]
          simp only [Ff, List.length_append, List.length_cons]
          omega

theorem F_le_len_v (v : Json) : Fv v + 1 ≤ 2 * (serJson v).length :=
  (F_le_len (Fv v)).1 v (le_refl _)

theorem serStrBody_no_nl (s : List Char) : '\n' ∉ serStrBody s := by
  induction s with
  | nil => simp [serStrBody]
  | cons c cs ih =>
    simp only [serStrBody]
    intro hmem
    rcases List.mem_append.mp hmem with h1 | h2
    · unfold escapeChar at h1
      split_ifs at h1 with e1 e2 e3 e4 e5
      · exact absurd h1 (by decide)
      · exact absurd h1 (by decide)
      · exact absurd h1 (by decide)
      · exact absurd h1 (by decide)
      · exact absurd h1 (by decide)
      · exact e3 (List.mem_singleton.mp h1).symm
    · exact ih h2

theorem serNat_no_nl (n : Nat) : '\n' ∉ serNat n := by
  intro h
  have := serNat_digits n _ h
  exact absurd this (by decide)

theorem serInt_no_nl (n : Int) : '\n' ∉ serInt n := by
  unfold serInt
  by_cases hn : n < 0
  · rw [if_pos hn]
    intro h
    rcases List.mem_cons.mp h with h1 | h2
    · exact absurd h1 (by decide)
    · exact serNat_no_nl _ h2
  · rw [if_neg hn]; exact serNat_no_nl _

theorem ser_no_nl : ∀ fuel : Nat,
    (∀ v : Json, Fv v ≤ fuel → '\n' ∉ serJson v) ∧
    (∀ es : List Json, Fe es ≤ fuel → '\n' ∉ serElems es) ∧
    (∀ fs : List (List Char × Json), Ff fs ≤ fuel → '\n' ∉ serFields fs) := by
  intro fuel
  induction fuel with
  | zero =>
    refine ⟨fun v hf => ?_, fun es hf => ?_, fun fs hf => ?_⟩
    · have := Fv_pos v; omega
    · have := Fe_pos es; omega
    · have := Ff_pos fs; omega
  | succ fuel ih =>
    obtain ⟨ihv, ihe, ihf⟩ := ih
    refine ⟨?_, ?_, ?_⟩
    · intro v hf
      cases v with
      | null => decide
      | bool b => cases b <;> decide
      | num n => exact serInt_no_nl n
      | str s =>
        rw [serJson_str]
        intro hmem
        rcases List.mem_cons.mp hmem with h1 | h2
        · exact absurd h1 (by decide)
        · rcases List.mem_append.mp h2 with h3 | h4
          · exact serStrBody_no_nl s h3
          · exact absurd h4 (by decide)
      | arr es =>
        have hfe : Fe es ≤ fuel := by simp only [Fv] at hf; omega
        rw [serJson_arr]
        intro hmem
        rcases List.mem_cons.mp hmem with h1 | h2
        · exact absurd h1 (by decide)
        · rcases List.mem_append.mp h2 with h3 | h4
          · exact ihe es hfe h3
          · exact absurd h4 (by decide)
      | obj fs =>
        have hff : Ff fs ≤ fuel := by simp only [Fv] at hf; omega
        rw [serJson_obj]
        intro hmem
        rcases List.mem_cons.mp hmem with h1 | h2
        · exact absurd h1 (by decide)
        · rcases List.mem_append.mp h2 with h3 | h4
          · exact ihf fs hff h3
          · exact absurd h4 (by decide)
    · intro es hf
      cases es with
      | nil => simp [serElems]
      | cons e es2 =>
        have hFv : Fv e ≤ fuel := by
          have := Fe_pos es2
          simp only [Fe] at hf; omega
        cases es2 with
        | nil =>
          rw [serElems_single]
          exact ihv e hFv
        | cons e3 es3 =>
          have hFe : Fe (e3 :: es3) ≤ fuel := by
            have := Fv_pos e
            simp only [Fe] at hf ⊢
            omega
          rw [serElems_cons e (e3 :: es3) (by simp)]
          intro hmem
          rcases List.mem_append.mp hmem with h1 | h2
          · exact ihv e hFv h1
          · rcases List.mem_cons.mp h2 with h3 | h4
            · exact absurd h3 (by decide)
            · exact ihe (e3 :: es3) hFe h4
    · intro fs hf
      cases fs with
      | nil => simp [serFields]
      | cons kv fs2 =>
        rcases kv with ⟨k, v0⟩
        have hFv : Fv v0 ≤ fuel := by
          have := Ff_pos fs2
          simp only [Ff] at hf; omega
        have hfield : '\n' ∉ serField k v0 := by
          rw [serField_eq]
          intro hmem
          rcases List.mem_cons.mp hmem with h1 | h2
          · exact absurd h1 (by decide)
          · rcases List.mem_append.mp h2 with h3 | h4
            · exact serStrBody_no_nl k h3
            · rcases List.mem_cons.mp h4 with h5 | h6
              · exact absurd h5 (by decide)
              · rcases List.mem_cons.mp h6 with h7 | h8
                · exact absurd h7 (by decide)
                · exact ihv v0 hFv h8
        cases fs2 with
        | nil =>
          rw [serFields_single]
          exact hfield
        | cons f3 fs3 =>
          have hFf : Ff (f3 :: fs3) ≤ fuel := by
            have := Fv_pos v0
            simp only [Ff] at hf ⊢
            omega
          rw [serFields_cons k v0 _ (by simp)]
          intro hmem
          rcases List.mem_append.mp hmem with h1 | h2
          · exact hfield h1
          · rcases List.mem_cons.mp h2 with h3 | h4
            · exact absurd h3 (by decide)
            · exact ihf (f3 :: fs3) hFf h4

theorem serJson_no_nl (v : Json) : '\n' ∉ serJson v :=
  (ser_no_nl (Fv v)).1 v (le_refl _)

/-- Parsing the serialization of a value followed by trailing whitespace
(that is not a digit) recovers the value: this is the client-side
`JSON.parse` applied to a stringified message. -/
theorem jsonParse_ser_tail (v : Json) (tail : List Char) (hws : tail.all isWs = true)
    (hd : headIsDigit tail = false) : jsonParse (serJson v ++ tail) = some v := by
  unfold jsonParse
  rw [serJson_head_not_digit_char v tail]
  have hb := F_le_len_v v
  have hfuel : Fv v ≤ 2 * (serJson v ++ tail).length + 2 := by
    rw [List.length_append]; omega
  rw [(parse_ser_all (2 * (serJson v ++ tail).length + 2)).1 v tail hfuel hd]
  simp [hws]

theorem jsonParse_ser (v : Json) : jsonParse (serJson v) = some v := by
  have := jsonParse_ser_tail v [] rfl rfl
  simpa using this

theorem jsonParse_ser_nl (v : Json) : jsonParse (serJson v ++ ['\n']) = some v :=
  jsonParse_ser_tail v ['\n'] (by decide) (by decide)

/-! ### The worker's request dispatch (src/index.js lines 316-349)

Destructuring `const \x7bid, method, params\x7d = JSON.parse(line)` reads
object fields; with duplicate keys the later occurrence wins, and reading a
field of a non-object yields `undefined` (modelled as `none`).  The upstream
MCP client is an oracle: `listTools` and `callTool` either produce a result
value or fail; a failure is delivered to the worker as its stringified text
(the code applies `String(err)` to whatever was thrown). -/

def lookupLast (k : List Char) : List (List Char × Json) → Option Json
  | [] => none
  | (k2, v) :: fs =>
    match lookupLast k fs with
    | some r => some r
    | none => if k2 = k then some v else none

def getField (j : Json) (k : List Char) : Option Json :=
  match j with
  | .obj fs => lookupLast k fs
  | _ => none

structure Upstream where
  listTools : Except (List Char) Json
  callTool : Option Json → Except (List Char) Json

/-- Fields of `JSON.stringify(\x7bid, result, error\x7d)`: insertion order
`id`, `result`, `error`, with `undefined` fields omitted entirely. -/
def respFields (id : Option Json) (result : Option Json) (error : Option (List Char)) :
    List (List Char × Json) :=
  (match id with
   | some j => [(("id".toList), j)]
   | none => []) ++
  (match result with
   | some j => [(("result".toList), j)]
   | none => []) ++
  (match error with
   | some e => [(("error".toList), Json.str e)]
   | none => [])

def serResponse (id : Option Json) (result : Option Json) (error : Option (List Char)) :
    List Char :=
  serJson (.obj (respFields id result error)) ++ ['\n']

/-- Processing of one complete line: parse it, dispatch the method against
the upstream client with per-request try/catch, write back one response.
`none` models the uncaught `JSON.parse` exception (which escapes the async
data handler and brings the worker down). -/
def handleLine (u : Upstream) (line : List Char) : Option (List Char) :=
  match jsonParse line with
  | none => none
  | some j =>
    let id := getField j ("id".toList)
    let params := getField j ("params".toList)
    let dispatched : Option (Except (List Char) Json) :=
      match getField j ("method".toList) with
      | some (.str m) =>
        if m = ("listTools".toList) then some u.listTools
        else if m = ("callTool".toList) then some (u.callTool params)
        else none
      | _ => none
    match dispatched with
    | some (.ok r) => some (serResponse id (some r) none)
    | some (.error e) => some (serResponse id none (some e))
    | none => some (serResponse id none none)

/-- Per-connection state of the worker's socket handler. -/
structure Conn where
  buffer : List Char
  out : List (List Char)
  crashed : Bool
deriving DecidableEq

def initConn : Conn := ⟨[], [], false⟩

/-- `!line.trim()`: the line contains only whitespace. -/
def isBlank (l : List Char) : Bool := l.all isWs

def processLines (u : Upstream) : Conn → List (List Char) → Conn
  | st, [] => st
  | st, l :: ls =>
    if isBlank l then processLines u st ls
    else
      match handleLine u l with
      | some resp => processLines u { st with out := st.out ++ [resp] } ls
      | none => { st with crashed := true }

/-- One `data` event: append the chunk, keep the trailing partial line as
the new buffer, process every complete line in order. -/
def onData (u : Upstream) (st : Conn) (chunk : List Char) : Conn :=
  if st.crashed then st
  else
    processLines u { st with buffer := (splitLines (st.buffer ++ chunk)).2 }
      (splitLines (st.buffer ++ chunk)).1

/-! ### The RPC client (`sendRpc`, src/index.js lines 75-114) -/

inductive RpcFailure where
  | errorResponse (e : Json)
  | connectionClosed

structure ClientState where
  responseData : List Char
  settled : Option (Except RpcFailure (Option Json))

def initClient : ClientState := ⟨[], none⟩

/-- JavaScript truthiness of a parsed JSON field (absent = `undefined`). -/
def jsTruthy : Option Json → Bool
  | none => false
  | some .null => false
  | some (.bool b) => b
  | some (.num n) => decide (n ≠ 0)
  | some (.str s) => decide (s ≠ [])
  | some (.arr _) => true
  | some (.obj _) => true

/-- One `data` event on the client: accumulate, try to parse the whole
buffer as a single JSON value, and settle the promise when a response whose
`id` field strictly equals the request id appears.  A promise settles at
most once.  The rejection carries the response's `error` field (the code
wraps it in an `Error`). -/
def clientOnData (id : List Char) (st : ClientState) (chunk : List Char) : ClientState :=
  if st.settled.isSome then st
  else
    let rd := st.responseData ++ chunk
    match jsonParse rd with
    | some resp =>
      match getField resp ("id".toList) with
      | some (.str s) =>
        if s = id then
          if jsTruthy (getField resp ("error".toList)) then
            { responseData := rd,
              settled := some (.error (.errorResponse
                ((getField resp ("error".toList)).getD .null))) }
          else
            { responseData := rd, settled := some (.ok (getField resp ("result".toList))) }
        else { responseData := rd, settled := none }
      | _ => { responseData := rd, settled := none }
    | none => { responseData := rd, settled := none }

/-- The `end` event: reject only when the accumulated data is empty
(`if (!responseData) reject(...)`). -/
def clientOnEnd (st : ClientState) : ClientState :=
  if st.settled.isSome then st
  else if st.responseData.isEmpty then { st with settled := some (.error .connectionClosed) }
  else st

/-! ### Registry, liveness wrapper, stop and start (src/index.js 19-73, 120-223) -/

structure Entry where
  command : Option (List Char)
  args : Option (List (List Char))
  url : Option (List Char)
  env : List (List Char × List Char)
  cwd : List Char
  pid : Nat
  socketPath : List Char
  started : List Char
deriving DecidableEq

/-- A JavaScript error value as the catch blocks inspect it: its message
and its optional `code` property. -/
structure JsError where
  message : List Char
  code : Option (List Char)
deriving DecidableEq

def esrch : List Char := "ESRCH".toList

def lookupServer (name : List Char) : List (List Char × Entry) → Option Entry
  | [] => none
  | (k, e) :: rest => if k = name then some e else lookupServer name rest

/-- `delete servers[servername]` on the ordered registry object. -/
def eraseServer (name : List Char) (servers : List (List Char × Entry)) :
    List (List Char × Entry) :=
  servers.filter (fun p => decide (p.1 ≠ name))

inductive WSOut (α : Type) where
  | ok (v : α)
  | notRunning
  | processGone
  | operationFailed (message : List Char)

structure WSResult (α : Type) where
  servers : List (List Char × Entry)
  persisted : Bool
  out : WSOut α

def wsExitCode {α : Type} : WSOut α → Nat
  | .ok _ => 0
  | _ => 1

/-- `withServer` (lines 51-73).  `probe` is the outcome of
`process.kill(pid, 0)`; the single catch block handles an exception from
the probe and from the awaited operation alike. -/
def withServer {α : Type} (servers : List (List Char × Entry)) (name : List Char)
    (probe : Except JsError Unit) (op : Entry → Except JsError α) : WSResult α :=
  match lookupServer name servers with
  | none => ⟨servers, false, .notRunning⟩
  | some entry =>
    match probe with
    | .error e =>
      if e.code = some esrch then ⟨eraseServer name servers, true, .processGone⟩
      else ⟨servers, false, .operationFailed e.message⟩
    | .ok _ =>
      match op entry with
      | .ok v => ⟨servers, false, .ok v⟩
      | .error e =>
        if e.code = some esrch then ⟨eraseServer name servers, true, .processGone⟩
        else ⟨servers, false, .operationFailed e.message⟩

structure StopResult where
  servers : List (List Char × Entry)
  persisted : Bool
  exitCode : Nat
deriving DecidableEq

/-- The `stop` command (lines 187-223).  `kill` is the outcome of
`process.kill(pid, 'SIGTERM')`; socket-file cleanup errors are ignored and
not modelled.  An `ESRCH` failure still prunes the entry and the command
finishes normally (exit status 0). -/
def stopCmd (servers : List (List Char × Entry)) (name : List Char)
    (kill : Except JsError Unit) : StopResult :=
  match lookupServer name servers with
  | none => ⟨servers, false, 1⟩
  | some _ =>
    match kill with
    | .ok _ => ⟨eraseServer name servers, true, 0⟩
    | .error e =>
      if e.code = some esrch then ⟨eraseServer name servers, true, 0⟩
      else ⟨servers, false, 1⟩

structure Config where
  command : Option (List Char)
  args : Option (List (List Char))
  url : Option (List Char)
  env : List (List Char × List Char)
  cwd : List Char
deriving DecidableEq

def joinSpaces : List (List Char) → List Char
  | [] => []
  | [w] => w
  | w :: ws => w ++ (' ' :: joinSpaces ws)

/-- Construction of the launch config (lines 135-149): try
`new URL([urlOrCommand, ..._].join(' '))` first; on success only `url` is
set, otherwise only `command` and `args`.  `tryURL` is the URL-constructor
oracle: the normalized href on success, `none` when the constructor
throws. -/
def mkConfig (tryURL : List Char → Option (List Char)) (urlOrCommand : List Char)
    (restArgs : List (List Char)) (env : List (List Char × List Char))
    (cwd : List Char) : Config :=
  match tryURL (joinSpaces (urlOrCommand :: restArgs)) with
  | some href => { command := none, args := none, url := some href, env := env, cwd := cwd }
  | none =>
    { command := some urlOrCommand, args := some restArgs, url := none, env := env, cwd := cwd }

inductive WorkerEvent where
  | message (type : List Char) (socketPath : List Char)
  | errored (e : JsError)
  | timerFired
deriving DecidableEq

inductive StartError where
  | alreadyRunning
  | startupTimeout
  | spawnFailed (e : JsError)
deriving DecidableEq

instance exceptDecEq {e a : Type} [DecidableEq e] [DecidableEq a] :
    DecidableEq (Except e a) := fun x y =>
  match x, y with
  | .ok v, .ok w =>
    if h : v = w then .isTrue (by rw [h]) else .isFalse (fun he => h (Except.ok.inj he))
  | .error v, .error w =>
    if h : v = w then .isTrue (by rw [h]) else .isFalse (fun he => h (Except.error.inj he))
  | .ok _, .error _ => .isFalse (fun he => Except.noConfusion he)
  | .error _, .ok _ => .isFalse (fun he => Except.noConfusion he)

structure LaunchResult where
  servers : List (List Char × Entry)
  saved : Bool
  killed : Bool
  outcome : Option (Except StartError Unit)
deriving DecidableEq

/-- The registry entry recorded on readiness:
`\x7b...config, pid, socketPath, started\x7d`. -/
def entryOf (config : Config) (pid : Nat) (socketPath : List Char) (started : List Char) :
    Entry :=
  { command := config.command, args := config.args, url := config.url,
    env := config.env, cwd := config.cwd, pid := pid, socketPath := socketPath,
    started := started }

/-- The launcher's handshake (lines 157-181): wait on the forked child's
events in order.  A `message` whose type is not `ready` is ignored; the
first `ready` clears the timer, appends the entry, saves the registry and
resolves; a child error rejects with `SpawnFailed`; the 60-second timer
firing kills the child and rejects with `StartupTimeout`.  After the first
settlement the launcher process exits, so later events are irrelevant. -/
def launchWait (servers : List (List Char × Entry)) (name : List Char) (config : Config)
    (pid : Nat) (started : List Char) : List WorkerEvent → LaunchResult
  | [] => ⟨servers, false, false, none⟩
  | .message t sp :: rest =>
    if t = ("ready".toList) then
      ⟨servers ++ [(name, entryOf config pid sp started)], true, false, some (.ok ())⟩
    else launchWait servers name config pid started rest
  | .errored e :: _ => ⟨servers, false, false, some (.error (.spawnFailed e))⟩
  | .timerFired :: _ => ⟨servers, false, true, some (.error .startupTimeout)⟩

structure StartResult where
  servers : List (List Char × Entry)
  saved : Bool
  spawned : Bool
  killed : Bool
  outcome : Option (Except StartError Unit)
deriving DecidableEq

/-- The `start` command (lines 120-185): if an entry for the name already
exists it fails with `AlreadyRunning` before anything is spawned; otherwise
it builds the config, forks the worker and runs the handshake. -/
def startCmd (servers : List (List Char × Entry)) (name : List Char)
    (tryURL : List Char → Option (List Char)) (urlOrCommand : List Char)
    (restArgs : List (List Char)) (env : List (List Char × List Char)) (cwd : List Char)
    (pid : Nat) (started : List Char) (events : List WorkerEvent) : StartResult :=
  match lookupServer name servers with
  | some _ => ⟨servers, false, false, false, some (.error .alreadyRunning)⟩
  | none =>
    let config := mkConfig tryURL urlOrCommand restArgs env cwd
    let r := launchWait servers name config pid started events
    ⟨r.servers, r.saved, true, r.killed, r.outcome⟩

/-- Exit status of the `start` CLI process: 0 after a resolved handshake,
nonzero on any failure; `none` if the handshake never settles. -/
def startExitCode : Option (Except StartError Unit) → Option Nat
  | some (.ok _) => some 0
  | some (.error _) => some 1
  | none => none

/-! ### Shared helper lemmas and sample values for the claim theorems -/

theorem serJson_not_blank (v : Json) : isBlank (serJson v) = false := by
  rcases serJson_head_cases v with ⟨c, cs, he, hc⟩
  rw [he]
  have hnw : isWs c = false := by
    rcases hc with rfl | rfl | rfl | rfl | rfl | rfl | rfl | hdig
    · decide
    · decide
    · decide
    · decide
    · decide
    · decide
    · decide
    · exact isDigit_not_ws c hdig
  simp [isBlank, hnw]

/-- An event of the launcher handshake that is neither a readiness signal
nor a spawn error. -/
def deliversNoSignal : WorkerEvent → Bool
  | .message t _ => decide (t ≠ ("ready".toList))
  | .errored _ => false
  | .timerFired => true

theorem launchWait_timeout (servers : List (List Char × Entry)) (name : List Char)
    (config : Config) (pid : Nat) (started : List Char) (pre post : List WorkerEvent)
    (hpre : ∀ ev ∈ pre, deliversNoSignal ev = true) :
    launchWait servers name config pid started (pre ++ .timerFired :: post) =
      ⟨servers, false, true, some (.error .startupTimeout)⟩ := by
  induction pre with
  | nil => rfl
  | cons ev pre2 ih =>
    have hev := hpre ev (List.mem_cons_self ev pre2)
    have hrest : ∀ e ∈ pre2, deliversNoSignal e = true :=
      fun e he => hpre e (List.mem_cons_of_mem ev he)
    cases ev with
    | message t sp =>
      have ht : t ≠ ("ready".toList) := by
        simpa [deliversNoSignal] using hev
      rw [List.cons_append]
      simp only [launchWait, if_neg ht]
      exact ih hrest
    | errored e => simp [deliversNoSignal] at hev
    | timerFired => rfl

def entryA : Entry := ⟨none, none, none, [], [], 1234, ("s".toList), ("t".toList)⟩

/-- The byte stream `sendRpc` writes for a `callTool` invocation:
`JSON.stringify(\x7bid, method, params\x7d) + newline`, with `params`
present because the argument object is truthy. -/
def clientRequest (id tool : List Char) (args : Json) : List Char :=
  serJson (.obj [(("id".toList), .str id), (("method".toList), .str ("callTool".toList)),
    (("params".toList), .obj [(("name".toList), .str tool),
      (("arguments".toList), args)])]) ++ ['\n']

/-! ### Claim theorems -/

/-- C1: per connection and per sequence of received chunks, the worker
processes exactly the complete newline-terminated lines of the concatenated
stream, in order, and retains the trailing partial line in the
per-connection buffer; a request split over two chunks is dispatched
exactly once after both arrive, and two complete requests in one chunk each
get exactly one response with the matching id. -/
theorem c1_line_buffering :
    (∀ chunks : List (List Char),
      List.foldl decodeStep ([], []) chunks =
        ((splitLines chunks.flatten).2, (splitLines chunks.flatten).1)) ∧
    (let u : Upstream := ⟨.ok (Json.str ("T".toList)), fun _ => .ok Json.null⟩
     let line := serJson (.obj [(("id".toList), .str ("1".toList)),
       (("method".toList), .str ("listTools".toList))]) ++ ['\n']
     let mid := onData u initConn (line.take 14)
     let fin := onData u mid (line.drop 14)
     mid.out = [] ∧ mid.buffer = line.take 14 ∧ fin.buffer = [] ∧
       fin.out = [serResponse (some (.str ("1".toList))) (some (.str ("T".toList))) none]) ∧
    (let u : Upstream := ⟨.ok (Json.str ("T".toList)), fun _ => .ok Json.null⟩
     let line1 := serJson (.obj [(("id".toList), .str ("1".toList)),
       (("method".toList), .str ("listTools".toList))]) ++ ['\n']
     let line2 := serJson (.obj [(("id".toList), .str ("2".toList)),
       (("method".toList), .str ("listTools".toList))]) ++ ['\n']
     let fin := onData u initConn (line1 ++ line2)
     fin.buffer = [] ∧
       fin.out = [serResponse (some (.str ("1".toList))) (some (.str ("T".toList))) none,
         serResponse (some (.str ("2".toList))) (some (.str ("T".toList))) none]) := by
  refine ⟨decode_fold, ?_, ?_⟩
  · decide
  · decide

/-- C4: when the worker delivers no readiness signal (and no spawn error)
before the 60-second timer fires, the launcher kills the spawned worker,
the start operation fails with `StartupTimeout`, and the registry is left
without a new entry and is not re-saved.  `timerFired` models the timer
elapsing; events after the settlement are irrelevant. -/
theorem c4_startup_timeout (servers : List (List Char × Entry)) (name : List Char)
    (config : Config) (pid : Nat) (started : List Char) (pre post : List WorkerEvent)
    (tryURL : List Char → Option (List Char)) (urlOrCommand : List Char)
    (restArgs : List (List Char)) (env : List (List Char × List Char)) (cwd : List Char)
    (hno : lookupServer name servers = none)
    (hpre : ∀ ev ∈ pre, deliversNoSignal ev = true) :
    launchWait servers name config pid started (pre ++ .timerFired :: post) =
      ⟨servers, false, true, some (.error .startupTimeout)⟩ ∧
    startCmd servers name tryURL urlOrCommand restArgs env cwd pid started
        (pre ++ .timerFired :: post) =
      ⟨servers, false, true, true, some (.error .startupTimeout)⟩ := by
  refine ⟨launchWait_timeout servers name config pid started pre post hpre, ?_⟩
  simp only [startCmd, hno]
  rw [launchWait_timeout servers name _ pid started pre post hpre]

/-- C4 witness. -/
theorem c4_startup_timeout_witness :
    launchWait [] ("a".toList) (mkConfig (fun _ => none) ("cmd".toList) [] [] []) 7
        ("t".toList) [.timerFired] =
      ⟨[], false, true, some (.error .startupTimeout)⟩ ∧
    startCmd [] ("a".toList) (fun _ => none) ("cmd".toList) [] [] [] 7 ("t".toList)
        [.timerFired] =
      ⟨[], false, true, true, some (.error .startupTimeout)⟩ := by
  have h := c4_startup_timeout [] ("a".toList)
    (mkConfig (fun _ => none) ("cmd".toList) [] [] []) 7 ("t".toList) [] []
    (fun _ => none) ("cmd".toList) [] [] [] rfl (fun ev hev => nomatch hev)
  simpa using h

/-- C6: a second `start` for a name that already has a registry entry fails
with `AlreadyRunning` and exits nonzero, spawns nothing, kills nothing and
leaves the registry byte-for-byte unchanged — the recorded entry (alive or
dead, it is never probed) is untouched. -/
theorem c6_already_running (servers : List (List Char × Entry)) (name : List Char)
    (entry : Entry) (tryURL : List Char → Option (List Char)) (urlOrCommand : List Char)
    (restArgs : List (List Char)) (env : List (List Char × List Char)) (cwd : List Char)
    (pid : Nat) (started : List Char) (events : List WorkerEvent)
    (h : lookupServer name servers = some entry) :
    startCmd servers name tryURL urlOrCommand restArgs env cwd pid started events =
      ⟨servers, false, false, false, some (.error .alreadyRunning)⟩ ∧
    startExitCode (startCmd servers name tryURL urlOrCommand restArgs env cwd pid
      started events).outcome = some 1 := by
  have h1 : startCmd servers name tryURL urlOrCommand restArgs env cwd pid started events =
      ⟨servers, false, false, false, some (.error .alreadyRunning)⟩ := by
    simp only [startCmd, h]
  exact ⟨h1, by rw [h1]; rfl⟩

/-- C6 witness. -/
theorem c6_already_running_witness :
    startCmd [(("a".toList), entryA)] ("a".toList) (fun _ => none) ("cmd".toList) [] [] []
        7 ("t".toList) [.message ("ready".toList) ("s".toList)] =
      ⟨[(("a".toList), entryA)], false, false, false, some (.error .alreadyRunning)⟩ :=
  (c6_already_running [(("a".toList), entryA)] ("a".toList) entryA (fun _ => none)
    ("cmd".toList) [] [] [] 7 ("t".toList) [.message ("ready".toList) ("s".toList)]
    (by decide)).1

/-- C8: the launch config stores either a local-spawn descriptor (`command`
with `args`) or a remote descriptor (`url`), mutually exclusively; the
choice is made by first attempting to parse the joined target as a URL, and
`url` is set exactly when that parse succeeds. -/
theorem c8_config_exclusive (tryURL : List Char → Option (List Char))
    (urlOrCommand : List Char) (restArgs : List (List Char))
    (env : List (List Char × List Char)) (cwd : List Char) :
    (mkConfig tryURL urlOrCommand restArgs env cwd).url =
      tryURL (joinSpaces (urlOrCommand :: restArgs)) ∧
    ((mkConfig tryURL urlOrCommand restArgs env cwd).url.isSome ↔
      (tryURL (joinSpaces (urlOrCommand :: restArgs))).isSome) ∧
    ((mkConfig tryURL urlOrCommand restArgs env cwd).command.isSome ↔
      (mkConfig tryURL urlOrCommand restArgs env cwd).url.isNone) ∧
    ((mkConfig tryURL urlOrCommand restArgs env cwd).args.isSome ↔
      (mkConfig tryURL urlOrCommand restArgs env cwd).command.isSome) ∧
    ¬((mkConfig tryURL urlOrCommand restArgs env cwd).url.isSome ∧
      (mkConfig tryURL urlOrCommand restArgs env cwd).command.isSome) ∧
    ((mkConfig tryURL urlOrCommand restArgs env cwd).url.isNone →
      (mkConfig tryURL urlOrCommand restArgs env cwd).command = some urlOrCommand ∧
      (mkConfig tryURL urlOrCommand restArgs env cwd).args = some restArgs) := by
  cases h : tryURL (joinSpaces (urlOrCommand :: restArgs)) with
  | none => simp [mkConfig, h]
  | some href => simp [mkConfig, h]

/-- C8 witness (for the parse-failure branch of the final implication). -/
theorem c8_config_exclusive_witness :
    (mkConfig (fun _ => none) ("cmd".toList) [("x".toList)] [] []).command =
      some ("cmd".toList) ∧
    (mkConfig (fun _ => none) ("cmd".toList) [("x".toList)] [] []).args =
      some [("x".toList)] :=
  (c8_config_exclusive (fun _ => none) ("cmd".toList) [("x".toList)] [] []).2.2.2.2.2
    (by decide)

/-- C10: when the recorded process is gone (`SIGTERM` raises `ESRCH`),
`stop` prunes the entry, persists the change and finishes with exit status
0, while `tools`/`call` (through `withServer`, whose probe raises the same
`ESRCH`) also prune the entry but fail with `ProcessGone` and exit
nonzero. -/
theorem c10_stop_esrch {α : Type} (servers : List (List Char × Entry)) (name : List Char)
    (entry : Entry) (e : JsError) (op : Entry → Except JsError α)
    (h : lookupServer name servers = some entry) (hc : e.code = some esrch) :
    stopCmd servers name (.error e) = ⟨eraseServer name servers, true, 0⟩ ∧
    withServer servers name (.error e) op = ⟨eraseServer name servers, true, .processGone⟩ ∧
    wsExitCode (withServer servers name (.error e) op).out = 1 := by
  have h1 : stopCmd servers name (.error e) = ⟨eraseServer name servers, true, 0⟩ := by
    simp only [stopCmd, h]
    rw [if_pos hc]
  have h2 : withServer servers name (.error e) op =
      ⟨eraseServer name servers, true, .processGone⟩ := by
    simp only [withServer, h]
    rw [if_pos hc]
  exact ⟨h1, h2, by rw [h2]; rfl⟩

/-- C10 witness. -/
theorem c10_stop_esrch_witness :
    stopCmd [(("a".toList), entryA)] ("a".toList) (.error ⟨("gone".toList), some esrch⟩) =
      ⟨eraseServer ("a".toList) [(("a".toList), entryA)], true, 0⟩ ∧
    withServer [(("a".toList), entryA)] ("a".toList)
        (.error ⟨("gone".toList), some esrch⟩) (fun _ => (.ok () : Except JsError Unit)) =
      ⟨eraseServer ("a".toList) [(("a".toList), entryA)], true, .processGone⟩ := by
  have h := c10_stop_esrch [(("a".toList), entryA)] ("a".toList) entryA
    ⟨("gone".toList), some esrch⟩ (fun _ => (.ok () : Except JsError Unit))
    (by decide) (by decide)
  exact ⟨h.1, h.2.1⟩

/-- An operation whose failure carries the `ESRCH` code, as `withServer`'s
shared catch block sees it. -/
def opEsrch : Entry → Except JsError Unit :=
  fun _ => .error ⟨("boom".toList), some esrch⟩

/-- C2 counterexample: with a live probe, an operation failure whose `code`
is `ESRCH` does not propagate unchanged with the registry untouched — the
shared catch block prunes the entry and reports the process as gone. -/
theorem c2_counterexample :
    ¬ (withServer [(("a".toList), entryA)] ("a".toList) (.ok ()) opEsrch =
        ⟨[(("a".toList), entryA)], false, .operationFailed ("boom".toList)⟩) := by
  intro h
  have hp := congrArg WSResult.persisted h
  exact absurd hp (by decide)

/-- C2 (amended): `withServer` fails `NotRunning` without an entry; an
`ESRCH` probe failure prunes the entry, persists and fails `ProcessGone`;
any other probe failure fails `OperationFailed` with the registry
unchanged; with a live probe a successful operation outcome is returned
unchanged and the registry untouched, but a failing outcome lands in the
same catch block as the probe: a failure coded `ESRCH` prunes the entry and
fails `ProcessGone`, any other failure fails `OperationFailed` carrying the
failure's message. -/
theorem c2_withServer_amended {α : Type} (servers : List (List Char × Entry))
    (name : List Char) (probe : Except JsError Unit) (op : Entry → Except JsError α) :
    (lookupServer name servers = none →
      withServer servers name probe op = ⟨servers, false, .notRunning⟩) ∧
    (∀ entry e, lookupServer name servers = some entry → probe = .error e →
      e.code = some esrch →
      withServer servers name probe op = ⟨eraseServer name servers, true, .processGone⟩) ∧
    (∀ entry e, lookupServer name servers = some entry → probe = .error e →
      e.code ≠ some esrch →
      withServer servers name probe op = ⟨servers, false, .operationFailed e.message⟩) ∧
    (∀ entry v, lookupServer name servers = some entry → probe = .ok () →
      op entry = .ok v → withServer servers name probe op = ⟨servers, false, .ok v⟩) ∧
    (∀ entry e, lookupServer name servers = some entry → probe = .ok () →
      op entry = .error e → e.code = some esrch →
      withServer servers name probe op = ⟨eraseServer name servers, true, .processGone⟩) ∧
    (∀ entry e, lookupServer name servers = some entry → probe = .ok () →
      op entry = .error e → e.code ≠ some esrch →
      withServer servers name probe op = ⟨servers, false, .operationFailed e.message⟩) := by
  refine ⟨?_, ?_, ?_, ?_, ?_, ?_⟩
  · intro h
    simp only [withServer, h]
  · intro entry e h1 h2 h3
    subst h2
    simp only [withServer, h1]
    rw [if_pos h3]
  · intro entry e h1 h2 h3
    subst h2
    simp only [withServer, h1]
    rw [if_neg h3]
  · intro entry v h1 h2 h3
    subst h2
    simp only [withServer, h1, h3]
  · intro entry e h1 h2 h3 h4
    subst h2
    simp only [withServer, h1, h3]
    rw [if_pos h4]
  · intro entry e h1 h2 h3 h4
    subst h2
    simp only [withServer, h1, h3]
    rw [if_neg h4]

/-- C2 witness (for the amended operation-failure branch). -/
theorem c2_withServer_amended_witness :
    withServer [(("a".toList), entryA)] ("a".toList) (.ok ()) opEsrch =
      ⟨eraseServer ("a".toList) [(("a".toList), entryA)], true, .processGone⟩ :=
  (c2_withServer_amended [(("a".toList), entryA)] ("a".toList) (.ok ()) opEsrch).2.2.2.2.1
    entryA ⟨("boom".toList), some esrch⟩ (by decide) rfl rfl (by decide)

/-- C3 counterexample: the remote end sends one unparseable byte and then
closes; the claim says the call fails with `ConnectionClosedPrematurely`,
but the client's `end` handler only rejects when no bytes at all arrived,
so the call stays pending. -/
theorem c3_counterexample :
    ¬ ((clientOnEnd (clientOnData ("abcdefghi".toList) initClient
        ((serJson (Json.obj [])).take 1))).settled =
      some (.error .connectionClosed)) := by
  intro h
  rw [show (clientOnEnd (clientOnData ("abcdefghi".toList) initClient
      ((serJson (Json.obj [])).take 1))).settled = none from rfl] at h
  exact Option.noConfusion h

/-- C3 (amended): the client rejects with `ConnectionClosedPrematurely`
exactly when the connection ends with an empty receive buffer; if any bytes
arrived but no matching parseable response, the close is ignored and the
call stays pending. -/
theorem c3_client_close_amended :
    (clientOnEnd initClient).settled = some (.error .connectionClosed) ∧
    (∀ st : ClientState, st.settled = none → st.responseData ≠ [] →
      clientOnEnd st = st) := by
  refine ⟨rfl, ?_⟩
  intro st h1 h2
  have h3 : st.responseData.isEmpty = false := by
    cases hrd : st.responseData with
    | nil => exact absurd hrd h2
    | cons c cs => rfl
  unfold clientOnEnd
  rw [h1, h3]
  simp

/-- C3 witness (for the amended non-empty-buffer branch). -/
theorem c3_client_close_amended_witness :
    clientOnEnd ⟨("x".toList), none⟩ = ⟨("x".toList), none⟩ :=
  c3_client_close_amended.2 ⟨("x".toList), none⟩ rfl (by decide)

/-- A fresh client that receives one chunk holding a full response whose id
matches and whose `error` field is falsy resolves with the `result`
field. -/
theorem client_resolves (id : List Char) (respObj : Json) (chunk : List Char)
    (hp : jsonParse chunk = some respObj)
    (hid : getField respObj ("id".toList) = some (.str id))
    (herr : jsTruthy (getField respObj ("error".toList)) = false) :
    clientOnData id initClient chunk =
      ⟨chunk, some (.ok (getField respObj ("result".toList)))⟩ := by
  unfold clientOnData
  simp only [initClient, List.nil_append, Option.isSome_none, Bool.false_eq_true,
    if_false, hp, hid, herr, if_true, eq_self_iff_true]

/-- Upstream whose `listTools` dispatch fails, with the failure already
stringified as `String(err)` delivers it. -/
def uListFail : Upstream := ⟨.error ("Error: boom".toList), fun _ => .ok Json.null⟩

def lineC5 : List Char := serJson (.obj [(("id".toList), .str ("9".toList)),
  (("method".toList), .str ("listTools".toList))])

/-- C5: a well-formed request whose upstream dispatch fails gets back a
response carrying the request's id and the stringified failure in the
`error` field (no `result`), on the same connection; the handler then keeps
processing the remaining lines — the failure closes neither the connection
nor the worker. -/
theorem c5_dispatch_failure (u : Upstream) (line : List Char) (j : Json) (e : List Char)
    (hparse : jsonParse line = some j)
    (hdisp : (getField j ("method".toList) = some (.str ("listTools".toList)) ∧
              u.listTools = .error e) ∨
             (getField j ("method".toList) = some (.str ("callTool".toList)) ∧
              u.callTool (getField j ("params".toList)) = .error e)) :
    handleLine u line = some (serResponse (getField j ("id".toList)) none (some e)) ∧
    (∀ (st : Conn) (ls : List (List Char)), isBlank line = false →
      processLines u st (line :: ls) =
        processLines u
          { st with out := st.out ++ [serResponse (getField j ("id".toList)) none (some e)] }
          ls) := by
  have hne : ("callTool".toList) ≠ ("listTools".toList) := by decide
  have hhl : handleLine u line =
      some (serResponse (getField j ("id".toList)) none (some e)) := by
    unfold handleLine
    rw [hparse]
    rcases hdisp with ⟨hm, he⟩ | ⟨hm, he⟩
    · simp only [hm, he, eq_self_iff_true, if_true]
    · simp only [hm, he, eq_self_iff_true, if_true, if_neg hne]
  refine ⟨hhl, ?_⟩
  intro st ls hblank
  simp only [processLines]
  rw [if_neg (by rw [hblank]; exact Bool.false_ne_true), hhl]

/-- C5 witness. -/
theorem c5_dispatch_failure_witness :
    handleLine uListFail lineC5 =
      some (serResponse (some (.str ("9".toList))) none (some ("Error: boom".toList))) ∧
    processLines uListFail initConn [lineC5] =
      { initConn with
        out := [serResponse (some (.str ("9".toList))) none (some ("Error: boom".toList))] } := by
  have h := c5_dispatch_failure uListFail lineC5
    (.obj [(("id".toList), .str ("9".toList)), (("method".toList), .str ("listTools".toList))])
    ("Error: boom".toList) (jsonParse_ser _) (Or.inl ⟨rfl, rfl⟩)
  refine ⟨h.1, ?_⟩
  have h2 := h.2 initConn [] (by decide)
  rw [h2]
  rfl

/-- C9: a well-formed request line whose method is neither `listTools` nor
`callTool` is answered with a response that echoes the id and serializes
with neither a `result` nor an `error` key; the client therefore resolves
such a call with `undefined` (no result value). -/
theorem c9_unknown_method (u : Upstream) (line : List Char) (j : Json)
    (idStr m : List Char)
    (hparse : jsonParse line = some j)
    (hid : getField j ("id".toList) = some (.str idStr))
    (hm : getField j ("method".toList) = some (.str m))
    (h1 : m ≠ ("listTools".toList)) (h2 : m ≠ ("callTool".toList)) :
    handleLine u line = some (serJson (.obj [(("id".toList), .str idStr)]) ++ ['\n']) ∧
    (clientOnData idStr initClient
      (serJson (.obj [(("id".toList), .str idStr)]) ++ ['\n'])).settled =
      some (.ok none) := by
  constructor
  · unfold handleLine
    rw [hparse]
    simp only [hm, hid, if_neg h1, if_neg h2]
    rfl
  · rw [client_resolves idStr (.obj [(("id".toList), .str idStr)])
      (serJson (.obj [(("id".toList), .str idStr)]) ++ ['\n'])
      (jsonParse_ser_nl _) rfl rfl]
    rfl

/-- C9 witness. -/
theorem c9_unknown_method_witness :
    handleLine uListFail (serJson (.obj [(("id".toList), .str ("7".toList)),
        (("method".toList), .str ("ping".toList))])) =
      some (serJson (.obj [(("id".toList), .str ("7".toList))]) ++ ['\n']) ∧
    (clientOnData ("7".toList) initClient
      (serJson (.obj [(("id".toList), .str ("7".toList))]) ++ ['\n'])).settled =
      some (.ok none) :=
  c9_unknown_method uListFail _
    (.obj [(("id".toList), .str ("7".toList)), (("method".toList), .str ("ping".toList))])
    ("7".toList) ("ping".toList) (jsonParse_ser _) rfl rfl (by decide) (by decide)

/-! ### The runtime's number representation (IEEE doubles)

The exact codec above carries the decimal text that travels on the wire.
The runtime, however, materializes every JSON number as an IEEE double:
`JSON.parse` rounds an integer literal to the nearest double (round half
to even at 53 significant bits), so integers of magnitude above 2^53 are
not preserved.  `jsNumRound` models that rounding for an integer and
`numsRound` applies it to every number of a value.  On values whose
integers all lie in the double-exact range (`numsInRange`), the rounding
is the identity (`numsRound_id`): that is the regime in which the exact
codec is faithful — there `JSON.stringify` also prints exactly the
decimal digits `serInt` emits, since the shortest round-trip rendering of
an exactly represented integer below 10^21 is its decimal expansion. -/

def bitLenAux : Nat → Nat → Nat
  | 0, _ => 0
  | fuel + 1, n => if n = 0 then 0 else bitLenAux fuel (n / 2) + 1

/-- Number of binary digits of `n` (zero for 0); the fuel is always
sufficient. -/
def bitLen (n : Nat) : Nat := bitLenAux (n + 1) n

theorem bitLenAux_irrel : ∀ n f1 f2 : Nat, n < f1 → n < f2 →
    bitLenAux f1 n = bitLenAux f2 n := by
  intro n
  induction n using Nat.strong_induction_on with
  | _ n ih =>
    intro f1 f2 h1 h2
    cases f1 with
    | zero => omega
    | succ a =>
      cases f2 with
      | zero => omega
      | succ b =>
        by_cases h0 : n = 0
        · simp [bitLenAux, h0]
        · have hlt : n / 2 < n := Nat.div_lt_self (by omega) (by omega)
          simp only [bitLenAux, if_neg h0]
          rw [ih (n / 2) hlt a b (by omega) (by omega)]

theorem bitLen_eq (n : Nat) :
    bitLen n = if n = 0 then 0 else bitLen (n / 2) + 1 := by
  by_cases h0 : n = 0
  · simp [bitLen, bitLenAux, h0]
  · rw [if_neg h0]
    show bitLenAux (n + 1) n = _
    simp only [bitLenAux, if_neg h0]
    unfold bitLen
    rw [bitLenAux_irrel (n / 2) n (n / 2 + 1) (by omega) (by omega)]

theorem bitLen_le : ∀ n k : Nat, n < 2 ^ k → bitLen n ≤ k := by
  intro n
  induction n using Nat.strong_induction_on with
  | _ n ih =>
    intro k hk
    rw [bitLen_eq]
    by_cases h0 : n = 0
    · simp [h0]
    · rw [if_neg h0]
      cases k with
      | zero =>
        rw [pow_zero] at hk
        omega
      | succ k2 =>
        have hlt : n / 2 < n := Nat.div_lt_self (by omega) (by omega)
        have h2 : (2 : Nat) ^ (k2 + 1) = 2 * 2 ^ k2 := by
          rw [pow_succ]; ring
        have hh : n / 2 < 2 ^ k2 := by omega
        have := ih (n / 2) hlt k2 hh
        omega

/-- Rounding of a nonnegative integer to the 53-significant-bit grid of
IEEE doubles, ties to even. -/
def roundNat (m : Nat) : Nat :=
  if bitLen m ≤ 53 then m
  else
    let e := bitLen m - 53
    let q := m / 2 ^ e
    let r := m % 2 ^ e
    if r * 2 < 2 ^ e then q * 2 ^ e
    else if r * 2 > 2 ^ e then (q + 1) * 2 ^ e
    else if q % 2 = 0 then q * 2 ^ e else (q + 1) * 2 ^ e

/-- The integer value the runtime's `JSON.parse` produces for the decimal
literal of `n`: the nearest double. -/
def jsNumRound (n : Int) : Int :=
  if n < 0 then -(roundNat n.natAbs : Int) else (roundNat n.natAbs : Int)

theorem roundNat_exact (m : Nat) (h : m ≤ 2 ^ 53) : roundNat m = m := by
  by_cases hb : bitLen m ≤ 53
  · unfold roundNat
    rw [if_pos hb]
  · have hm : m = 2 ^ 53 := by
      rcases Nat.lt_or_ge m (2 ^ 53) with hlt | hge
      · exact absurd (bitLen_le m 53 hlt) hb
      · omega
    subst hm
    decide

theorem jsNumRound_exact (n : Int) (h : n.natAbs ≤ 2 ^ 53) : jsNumRound n = n := by
  unfold jsNumRound
  by_cases hn : n < 0
  · rw [if_pos hn, roundNat_exact n.natAbs h]
    omega
  · rw [if_neg hn, roundNat_exact n.natAbs h]
    omega

mutual
def numsInRange : Json → Bool
  | .null => true
  | .bool _ => true
  | .str _ => true
  | .num n => decide (n.natAbs ≤ 2 ^ 53)
  | .arr es => numsInRangeArr es
  | .obj fs => numsInRangeObj fs
def numsInRangeArr : List Json → Bool
  | [] => true
  | e :: es => numsInRange e && numsInRangeArr es
def numsInRangeObj : List (List Char × Json) → Bool
  | [] => true
  | kv :: fs => numsInRange kv.2 && numsInRangeObj fs
end

mutual
def numsRound : Json → Json
  | .null => .null
  | .bool b => .bool b
  | .str s => .str s
  | .num n => .num (jsNumRound n)
  | .arr es => .arr (numsRoundArr es)
  | .obj fs => .obj (numsRoundObj fs)
def numsRoundArr : List Json → List Json
  | [] => []
  | e :: es => numsRound e :: numsRoundArr es
def numsRoundObj : List (List Char × Json) → List (List Char × Json)
  | [] => []
  | kv :: fs => (kv.1, numsRound kv.2) :: numsRoundObj fs
end

theorem numsRound_id_all : ∀ fuel : Nat,
    (∀ v : Json, Fv v ≤ fuel → numsInRange v = true → numsRound v = v) ∧
    (∀ es : List Json, Fe es ≤ fuel → numsInRangeArr es = true →
      numsRoundArr es = es) ∧
    (∀ fs : List (List Char × Json), Ff fs ≤ fuel → numsInRangeObj fs = true →
      numsRoundObj fs = fs) := by
  intro fuel
  induction fuel with
  | zero =>
    refine ⟨fun v hf _ => ?_, fun es hf _ => ?_, fun fs hf _ => ?_⟩
    · have := Fv_pos v; omega
    · have := Fe_pos es; omega
    · have := Ff_pos fs; omega
  | succ fuel ih =>
    obtain ⟨ihv, ihe, ihf⟩ := ih
    refine ⟨?_, ?_, ?_⟩
    · intro v hf hr
      cases v with
      | null => rfl
      | bool b => rfl
      | str s => rfl
      | num n =>
        have hn : n.natAbs ≤ 2 ^ 53 := by
          simpa [numsInRange] using hr
        show Json.num (jsNumRound n) = Json.num n
        rw [jsNumRound_exact n hn]
      | arr es =>
        have hfe : Fe es ≤ fuel := by simp only [Fv] at hf; omega
        have hre : numsInRangeArr es = true := by simpa [numsInRange] using hr
        show Json.arr (numsRoundArr es) = Json.arr es
        rw [ihe es hfe hre]
      | obj fs =>
        have hff : Ff fs ≤ fuel := by simp only [Fv] at hf; omega
        have hrf : numsInRangeObj fs = true := by simpa [numsInRange] using hr
        show Json.obj (numsRoundObj fs) = Json.obj fs
        rw [ihf fs hff hrf]
    · intro es hf hr
      cases es with
      | nil => rfl
      | cons e es2 =>
        have hFv : Fv e ≤ fuel := by
          have := Fe_pos es2
          simp only [Fe] at hf; omega
        have hFe : Fe es2 ≤ fuel := by
          have := Fv_pos e
          simp only [Fe] at hf; omega
        have h1 : numsInRange e = true ∧ numsInRangeArr es2 = true := by
          simpa [numsInRangeArr, Bool.and_eq_true] using hr
        show numsRound e :: numsRoundArr es2 = e :: es2
        rw [ihv e hFv h1.1, ihe es2 hFe h1.2]
    · intro fs hf hr
      cases fs with
      | nil => rfl
      | cons kv fs2 =>
        have hFv : Fv kv.2 ≤ fuel := by
          have := Ff_pos fs2
          simp only [Ff] at hf; omega
        have hFf : Ff fs2 ≤ fuel := by
          have := Fv_pos kv.2
          simp only [Ff] at hf; omega
        have h1 : numsInRange kv.2 = true ∧ numsInRangeObj fs2 = true := by
          simpa [numsInRangeObj, Bool.and_eq_true] using hr
        show (kv.1, numsRound kv.2) :: numsRoundObj fs2 = kv :: fs2
        rw [ihv kv.2 hFv h1.1, ihf fs2 hFf h1.2]

/-- On a value whose integers all lie in the double-exact range, the
runtime's number rounding is the identity. -/
theorem numsRound_id (v : Json) (h : numsInRange v = true) : numsRound v = v :=
  (numsRound_id_all (Fv v)).1 v (le_refl _) h

/-- C7 counterexample: the integer 123456789012345678901 exceeds the
double-exact range, so the runtime's `JSON.parse` rounds it to
123456789012345683968; an `arguments` object holding it is altered by the
wire codec's parse step, refuting the claim's unrestricted precision
guarantee. -/
theorem c7_counterexample :
    jsNumRound (123456789012345678901 : Int) = (123456789012345683968 : Int) ∧
    (123456789012345683968 : Int) ≠ (123456789012345678901 : Int) ∧
    serJson (numsRound (.obj [(("n".toList),
        .num (123456789012345678901 : Int))])) ≠
      serJson (.obj [(("n".toList), .num (123456789012345678901 : Int))]) := by
  refine ⟨by decide, by decide, by decide⟩

/-- C7 (amended): a `callTool` round trip for arguments whose integers all
lie within the IEEE-double-exact range, where the runtime's number
representation is lossless (`numsRound` fixes the value).  The serialized
request frames to exactly one line; the worker parses it back to the
identical object — key order of every nested object and every in-range
integer intact — and dispatches upstream exactly the original
`\x7bname, arguments\x7d`; the response carrying the upstream result is
parsed by the client, which resolves with that very result.  Integers
beyond the range are rounded and not preserved (see the
counterexample). -/
theorem c7_calltool_roundtrip (u : Upstream) (id tool : List Char) (args : Json) (r : Json)
    (hrange : numsInRange args = true)
    (hcall : u.callTool (some (.obj [(("name".toList), .str tool),
      (("arguments".toList), args)])) = .ok r) :
    numsRound args = args ∧
    splitLines (clientRequest id tool args) =
      ([serJson (.obj [(("id".toList), .str id),
        (("method".toList), .str ("callTool".toList)),
        (("params".toList), .obj [(("name".toList), .str tool),
          (("arguments".toList), args)])])], []) ∧
    jsonParse (serJson (.obj [(("id".toList), .str id),
        (("method".toList), .str ("callTool".toList)),
        (("params".toList), .obj [(("name".toList), .str tool),
          (("arguments".toList), args)])])) =
      some (.obj [(("id".toList), .str id),
        (("method".toList), .str ("callTool".toList)),
        (("params".toList), .obj [(("name".toList), .str tool),
          (("arguments".toList), args)])]) ∧
    onData u initConn (clientRequest id tool args) =
      ⟨[], [serResponse (some (.str id)) (some r) none], false⟩ ∧
    (clientOnData id initClient (serResponse (some (.str id)) (some r) none)).settled =
      some (.ok (some r)) := by
  have hframe : splitLines (clientRequest id tool args) =
      ([serJson (.obj [(("id".toList), .str id),
        (("method".toList), .str ("callTool".toList)),
        (("params".toList), .obj [(("name".toList), .str tool),
          (("arguments".toList), args)])])], []) :=
    splitLines_snoc_nl _ (serJson_no_nl _)
  have hhandle : handleLine u (serJson (.obj [(("id".toList), .str id),
      (("method".toList), .str ("callTool".toList)),
      (("params".toList), .obj [(("name".toList), .str tool),
        (("arguments".toList), args)])])) =
      some (serResponse (some (.str id)) (some r) none) := by
    unfold handleLine
    rw [jsonParse_ser]
    show (match some (u.callTool (some (.obj [(("name".toList), .str tool),
        (("arguments".toList), args)]))) with
      | some (.ok r2) => some (serResponse (some (.str id)) (some r2) none)
      | some (.error e) => some (serResponse (some (.str id)) none (some e))
      | none => some (serResponse (some (.str id)) none none)) =
      some (serResponse (some (.str id)) (some r) none)
    rw [hcall]
  have hworker : onData u initConn (clientRequest id tool args) =
      ⟨[], [serResponse (some (.str id)) (some r) none], false⟩ := by
    unfold onData
    show processLines u
      { initConn with buffer := (splitLines (clientRequest id tool args)).2 }
      (splitLines (clientRequest id tool args)).1 = _
    rw [hframe]
    show processLines u ⟨[], [], false⟩ [serJson (.obj [(("id".toList), .str id),
      (("method".toList), .str ("callTool".toList)),
      (("params".toList), .obj [(("name".toList), .str tool),
        (("arguments".toList), args)])])] = _
    simp only [processLines]
    rw [if_neg (by rw [serJson_not_blank]; exact Bool.false_ne_true), hhandle]
    rfl
  have hclient : (clientOnData id initClient
      (serResponse (some (.str id)) (some r) none)).settled = some (.ok (some r)) := by
    rw [client_resolves id (.obj [(("id".toList), .str id), (("result".toList), r)])
      (serResponse (some (.str id)) (some r) none) (jsonParse_ser_nl _) rfl rfl]
    rfl
  exact ⟨numsRound_id args hrange, hframe, jsonParse_ser _, hworker, hclient⟩

/-- C7 witness: nested arguments with deliberate key order and the largest
exactly representable integer, 2^53. -/
theorem c7_calltool_roundtrip_witness :
    numsInRange (Json.obj [(("b".toList), .num 2),
      (("a".toList), .arr [.num 9007199254740992, .str ("x".toList)])]) = true ∧
    numsRound (Json.obj [(("b".toList), .num 2),
      (("a".toList), .arr [.num 9007199254740992, .str ("x".toList)])]) =
      Json.obj [(("b".toList), .num 2),
        (("a".toList), .arr [.num 9007199254740992, .str ("x".toList)])] ∧
    onData (⟨.ok Json.null, fun _ => .ok (Json.arr [])⟩ : Upstream) initConn
      (clientRequest ("i1".toList) ("t".toList)
        (.obj [(("b".toList), .num 2),
          (("a".toList), .arr [.num 9007199254740992, .str ("x".toList)])])) =
      ⟨[], [serResponse (some (.str ("i1".toList))) (some (.arr [])) none], false⟩ ∧
    (clientOnData ("i1".toList) initClient
      (serResponse (some (.str ("i1".toList))) (some (.arr [])) none)).settled =
      some (.ok (some (.arr []))) := by
  have h := c7_calltool_roundtrip (⟨.ok Json.null, fun _ => .ok (Json.arr [])⟩ : Upstream)
    ("i1".toList) ("t".toList)
    (.obj [(("b".toList), .num 2),
      (("a".toList), .arr [.num 9007199254740992, .str ("x".toList)])])
    (.arr []) (by decide) rfl
  exact ⟨by decide, h.1, h.2.2.2.1, h.2.2.2.2⟩

end MCPCmd
